import Mathlib

/-!
Verification of the axion planner core: a shallow embedding of the
dependency graph (pkg/graph), the file / command resources
(pkg/resource) and the orchestrator (pkg/orchestrator), together with
proofs of the specified properties.
-/

namespace Axion

/-! ## Graph data (pkg/graph)

A graph is a collection of named nodes, each carrying an ordered list of
outgoing edge targets.  The Go code stores nodes in `map[string]*Node`
keyed by the unique node name and edges as `[]*Node`; we model the node
collection as an association list from names to edge-target name lists
(node names are unique, see `Graph.AddNode` overwrite semantics).
-/

abbrev GraphData := List (String × List String)

/-- The node names of the graph (the keys of the `nodes` map). -/
def names (g : GraphData) : List String := g.map Prod.fst

/-- `adjOf g u` is the edge list of the node named `u` (empty when the
node does not exist), mirroring `g.nodes[u].edges`. -/
def adjOf : GraphData → String → List String
  | [], _ => []
  | (n, es) :: rest, u => if u = n then es else adjOf rest u

/-- Number of edges from `u` to `t`. -/
def cnt (g : GraphData) (u t : String) : Nat := (adjOf g u).count t

/-- The in-degree of `t`: total number of edges pointing at `t`, as
computed by the `inDegree` map initialisation in `Graph.sort`. -/
def indegN (g : GraphData) (t : String) : Nat :=
  (g.map (fun p => p.2.count t)).sum

/-- Sum of edge multiplicities into `t` from the sources listed in `S`. -/
def inflow (g : GraphData) (S : List String) (t : String) : Nat :=
  (S.map (fun u => cnt g u t)).sum

/-- Errors returned by the graph component (`ErrCircularDependency`,
`ErrNodeNotFound`). -/
inductive GraphErr where
  | circularDependency
  | nodeNotFound
deriving DecidableEq

/-- The inner loop body of `Graph.sort`: for each neighbor `m` of the
dequeued node, decrement its in-degree and enqueue it when the decrement
reaches zero.  Degrees are Go `int`s, modelled as `Int`. -/
def processEdges : List String → (String → Int) → List String →
    (String → Int) × List String
  | [], deg, queue => (deg, queue)
  | m :: rest, deg, queue =>
    let d := deg m - 1
    let deg' := fun x => if x = m then d else deg x
    let queue' := if d = 0 then queue ++ [m] else queue
    processEdges rest deg' queue'

/-- The Kahn work loop of `Graph.sort`: dequeue a node, append it to the
output, process its edges.  The Go loop runs while the queue is
non-empty; each node is enqueued at most once, so `g.length + 1` fuel is
ample (see `kahnSort`). -/
def kahnLoop (g : GraphData) : Nat → (String → Int) → List String →
    List String → List String
  | 0, _, _, sorted => sorted
  | fuel + 1, deg, queue, sorted =>
    match queue with
    | [] => sorted
    | n :: rest =>
      let p := processEdges (adjOf g n) deg rest
      kahnLoop g fuel p.1 p.2 (sorted ++ [n])

/-- Initial degree assignment of `Graph.sort`. -/
def deg0 (g : GraphData) : String → Int := fun t => (indegN g t : Int)

/-- `Graph.sort`, parameterised over the seed queue: the seed is the set
of zero-in-degree nodes, in an order chosen by Go map iteration (not
guaranteed stable, hence a parameter).  Fails with
`ErrCircularDependency` exactly when the produced list is shorter than
the node set. -/
def kahnSort (g : GraphData) (seed : List String) :
    Except GraphErr (List String) :=
  let sorted := kahnLoop g (g.length + 1) (deg0 g) seed []
  if sorted.length = g.length then .ok sorted else .error .circularDependency

/-- One admissible seed order (any permutation of this list is a
possible Go map iteration order over the zero-degree entries). -/
def canonicalSeed (g : GraphData) : List String :=
  (names g).filter (fun t => indegN g t = 0)

/-- A list is a valid seed when it enumerates exactly the
zero-in-degree nodes, once each, in some order. -/
def IsSeed (g : GraphData) (seed : List String) : Prop :=
  seed.Perm (canonicalSeed g)

/-- Well-formedness maintained by the orchestrator: node names are
unique, and every edge target is itself a node of the graph. -/
def WellFormed (g : GraphData) : Prop :=
  (names g).Nodup ∧ ∀ p ∈ g, ∀ t ∈ p.2, t ∈ names g

/-- `Graph.sort` with the canonical seed order. -/
def graphSort (g : GraphData) : Except GraphErr (List String) :=
  kahnSort g (canonicalSeed g)

instance (g : GraphData) : Decidable (WellFormed g) :=
  inferInstanceAs (Decidable (_ ∧ _))

instance (g : GraphData) (seed : List String) : Decidable (IsSeed g seed) :=
  inferInstanceAs (Decidable (seed.Perm (canonicalSeed g)))

/-! ## The cached graph structure (`Graph` with `cachedOrder`) -/

/-- The `Graph` struct: the node map plus the `cachedOrder` field
protected by `mu` (single-threaded model). -/
structure GraphS where
  nodes : GraphData
  cachedOrder : Option (List String)
deriving DecidableEq

/-- `graph.New()`. -/
def GraphS.new : GraphS := ⟨[], none⟩

/-- `Graph.AddNode` for a single node: overwrite the binding when the
name exists, insert otherwise.  Note: the source does not touch
`cachedOrder` here. -/
def GraphS.addNode (g : GraphS) (name : String) (edges : List String) : GraphS :=
  if (names g.nodes).contains name then
    { g with nodes := g.nodes.map (fun p => if p.1 = name then (name, edges) else p) }
  else
    { g with nodes := g.nodes ++ [(name, edges)] }

/-- `Graph.Invalidate`. -/
def GraphS.invalidate (g : GraphS) : GraphS := { g with cachedOrder := none }

/-- Append targets to the edge list of the node named `source`
(`Node.AddEdge` via the graph map). -/
def appendEdges (nodes : GraphData) (source : String) (targets : List String) :
    GraphData :=
  nodes.map (fun p => if p.1 = source then (p.1, p.2 ++ targets) else p)

/-- `Graph.AddEdge`: append edges from an existing source node and
invalidate the cache; `ErrNodeNotFound` when the source is unknown. -/
def GraphS.addEdge (g : GraphS) (source : String) (targets : List String) :
    Except GraphErr GraphS :=
  if (names g.nodes).contains source then
    .ok { nodes := appendEdges g.nodes source targets, cachedOrder := none }
  else
    .error .nodeNotFound

/-- `Graph.AddEdgeByName`: additionally validates each target name. -/
def GraphS.addEdgeByName (g : GraphS) (source : String) (targets : List String) :
    Except GraphErr GraphS :=
  if (names g.nodes).contains source then
    if targets.all (fun t => (names g.nodes).contains t) then
      .ok { nodes := appendEdges g.nodes source targets, cachedOrder := none }
    else
      .error .nodeNotFound
  else
    .error .nodeNotFound

/-- `Graph.Sort`: return the cached order when present; otherwise run
`Graph.sort` and cache the result. -/
def GraphS.sortC (g : GraphS) : Except GraphErr (List String × GraphS) :=
  match g.cachedOrder with
  | some l => .ok (l, g)
  | none =>
    match graphSort g.nodes with
    | .ok l => .ok (l, { g with cachedOrder := some l })
    | .error e => .error e

/-! ## Counting lemmas for the sort proof -/

theorem adjOf_eq_nil (g : GraphData) (u : String) (h : u ∉ names g) :
    adjOf g u = [] := by
  induction g with
  | nil => rfl
  | cons p rest ih =>
    obtain ⟨n, es⟩ := p
    simp only [names, List.map_cons, List.mem_cons, not_or] at h
    simp only [adjOf, if_neg h.1]
    exact ih h.2

theorem mem_names_of_mem_adjOf (g : GraphData) (u t : String)
    (h : t ∈ adjOf g u) : u ∈ names g := by
  by_contra hu
  rw [adjOf_eq_nil g u hu] at h
  exact absurd h (List.not_mem_nil t)

theorem exists_entry_of_mem_adjOf (g : GraphData) (u t : String)
    (h : t ∈ adjOf g u) : ∃ es, (u, es) ∈ g ∧ adjOf g u = es := by
  induction g with
  | nil => exact absurd h (List.not_mem_nil t)
  | cons p rest ih =>
    obtain ⟨n, es⟩ := p
    by_cases hu : u = n
    · subst hu
      exact ⟨es, List.mem_cons_self _ _, by simp [adjOf]⟩
    · simp only [adjOf, if_neg hu] at h ⊢
      obtain ⟨es', hmem, heq⟩ := ih h
      exact ⟨es', List.mem_cons_of_mem _ hmem, heq⟩

theorem le_sum_map {α : Type} (l : List α) (f : α → Nat) (x : α) (hx : x ∈ l) :
    f x ≤ (l.map f).sum := by
  induction l with
  | nil => exact absurd hx (List.not_mem_nil x)
  | cons a rest ih =>
    rcases List.mem_cons.mp hx with h | h
    · subst h; simp only [List.map_cons, List.sum_cons]; exact Nat.le_add_right _ _
    · simp only [List.map_cons, List.sum_cons]
      exact Nat.le_trans (ih h) (Nat.le_add_left _ _)

theorem sublist_sum_le {l₁ l₂ : List Nat} (h : l₁.Sublist l₂) :
    l₁.sum ≤ l₂.sum := by
  induction h with
  | slnil => exact Nat.le_refl 0
  | cons a _ ih => simp only [List.sum_cons]; exact Nat.le_trans ih (Nat.le_add_left _ _)
  | cons₂ a _ ih => simp only [List.sum_cons]; exact Nat.add_le_add_left ih a

theorem indegN_pos (g : GraphData) (u t : String) (h : t ∈ adjOf g u) :
    1 ≤ indegN g t := by
  obtain ⟨es, hmem, heq⟩ := exists_entry_of_mem_adjOf g u t h
  have hcnt : 0 < es.count t := List.count_pos_iff.mpr (heq ▸ h)
  have := le_sum_map g (fun p => p.2.count t) (u, es) hmem
  exact Nat.le_trans hcnt this

theorem inflow_nil (g : GraphData) (t : String) : inflow g [] t = 0 := rfl

theorem inflow_append (g : GraphData) (S T : List String) (t : String) :
    inflow g (S ++ T) t = inflow g S t + inflow g T t := by
  simp [inflow, List.map_append, List.sum_append]

theorem inflow_single (g : GraphData) (u t : String) :
    inflow g [u] t = cnt g u t := by
  simp [inflow]

theorem adjOf_cons_ne (n : String) (es : List String) (rest : GraphData)
    (u : String) (h : u ≠ n) : adjOf ((n, es) :: rest) u = adjOf rest u := by
  simp [adjOf, if_neg h]

theorem indegN_eq_inflow_names (g : GraphData) (hnd : (names g).Nodup)
    (t : String) : indegN g t = inflow g (names g) t := by
  induction g with
  | nil => rfl
  | cons p rest ih =>
    obtain ⟨n, es⟩ := p
    simp only [names, List.map_cons] at hnd
    have hn : n ∉ names rest := by
      intro hmem
      exact (List.nodup_cons.mp hnd).1 hmem
    have hrest := ih (List.nodup_cons.mp hnd).2
    have h1 : cnt ((n, es) :: rest) n t = es.count t := by
      simp [cnt, adjOf]
    have h2 : (rest.map Prod.fst).map (fun u => cnt ((n, es) :: rest) u t) =
        (rest.map Prod.fst).map (fun u => cnt rest u t) := by
      apply List.map_congr_left
      intro u hu
      have hune : u ≠ n := fun h => hn (h ▸ hu)
      show cnt ((n, es) :: rest) u t = cnt rest u t
      simp [cnt, adjOf_cons_ne n es rest u hune]
    show (((n, es) :: rest).map (fun p => p.2.count t)).sum =
      ((names ((n, es) :: rest)).map (fun u => cnt ((n, es) :: rest) u t)).sum
    simp only [names, List.map_cons, List.sum_cons]
    rw [h1, h2]
    simp only [indegN, inflow, names] at hrest
    rw [hrest]

theorem inflow_le_indegN (g : GraphData) (S : List String) (t : String)
    (hnd : (names g).Nodup) (hS : S.Nodup) (hsub : ∀ u ∈ S, u ∈ names g) :
    inflow g S t ≤ indegN g t := by
  rw [indegN_eq_inflow_names g hnd t]
  have hsp : S.Subperm (names g) := List.Nodup.subperm hS hsub
  obtain ⟨l, hperm, hsl⟩ := hsp
  have hmap : (l.map (fun u => cnt g u t)).Sublist
      ((names g).map (fun u => cnt g u t)) := List.Sublist.map _ hsl
  have hsum := sublist_sum_le hmap
  have hpermsum : (l.map (fun u => cnt g u t)).sum =
      (S.map (fun u => cnt g u t)).sum := (hperm.map _).sum_eq
  unfold inflow
  rw [← hpermsum]
  exact hsum

theorem mem_of_inflow_eq_indegN (g : GraphData) (S : List String) (t : String)
    (hnd : (names g).Nodup) (hS : S.Nodup) (hsub : ∀ u ∈ S, u ∈ names g)
    (heq : inflow g S t = indegN g t) :
    ∀ u, t ∈ adjOf g u → u ∈ S := by
  intro u hu
  by_contra hnotin
  have humem : u ∈ names g := mem_names_of_mem_adjOf g u t hu
  have hS' : (u :: S).Nodup := List.nodup_cons.mpr ⟨hnotin, hS⟩
  have hsub' : ∀ v ∈ u :: S, v ∈ names g := by
    intro v hv
    rcases List.mem_cons.mp hv with h | h
    · exact h ▸ humem
    · exact hsub v h
  have hle := inflow_le_indegN g (u :: S) t hnd hS' hsub'
  have hcons : inflow g (u :: S) t = cnt g u t + inflow g S t := by
    simp [inflow]
  have hcnt : 0 < cnt g u t := List.count_pos_iff.mpr hu
  omega

/-- Every edge target is a node name (well-formed graphs). -/
theorem closed_adjOf (g : GraphData) (hwf : WellFormed g) (u t : String)
    (h : t ∈ adjOf g u) : t ∈ names g := by
  obtain ⟨es, hmem, heq⟩ := exists_entry_of_mem_adjOf g u t h
  exact hwf.2 (u, es) hmem t (heq ▸ h)

/-! ## Loop invariants of `Graph.sort` -/

/-- Invariant of the inner edge-processing fold: node `n` has just been
appended to the output after `sorted0`, the edges in `done` are already
processed. -/
structure FInv (g : GraphData) (n : String) (sorted0 done : List String)
    (deg : String → Int) (queue : List String) : Prop where
  hdeg : ∀ t, deg t =
    (indegN g t : Int) - (inflow g sorted0 t : Int) - (done.count t : Int)
  hq0 : ∀ v ∈ queue, deg v = 0
  hnd : ((sorted0 ++ [n]) ++ queue).Nodup
  hqmem : ∀ v ∈ queue, v ∈ names g
  hqpred : ∀ v ∈ queue, ∀ u, v ∈ adjOf g u → u ∈ sorted0 ++ [n]
  hzero : ∀ v ∈ sorted0 ++ [n], (indegN g v : Int) ≤ (inflow g sorted0 v : Int)

theorem processEdges_cons (m : String) (rest : List String)
    (deg : String → Int) (queue : List String) :
    processEdges (m :: rest) deg queue =
      processEdges rest (fun x => if x = m then deg m - 1 else deg x)
        (if deg m - 1 = 0 then queue ++ [m] else queue) := rfl

theorem processEdges_spec (g : GraphData) (hwf : WellFormed g) (n : String)
    (sorted0 : List String)
    (hsmem : ∀ v ∈ sorted0 ++ [n], v ∈ names g) :
    ∀ targets done deg queue,
      done ++ targets = adjOf g n →
      FInv g n sorted0 done deg queue →
      FInv g n sorted0 (done ++ targets) (processEdges targets deg queue).1
        (processEdges targets deg queue).2 := by
  intro targets
  induction targets with
  | nil =>
    intro done deg queue _ hinv
    simpa [processEdges] using hinv
  | cons m rest ih =>
    intro done deg queue hsplit hinv
    have hadj : (done ++ [m]) ++ rest = adjOf g n := by
      rw [List.append_assoc, List.singleton_append]
      exact hsplit
    have hmadj : m ∈ adjOf g n := by
      rw [← hsplit]
      exact List.mem_append.mpr (Or.inr (List.mem_cons_self m rest))
    have hmnames : m ∈ names g := closed_adjOf g hwf n m hmadj
    have hsnod : (sorted0 ++ [n]).Nodup :=
      hinv.hnd.sublist (List.sublist_append_left _ _)
    have hcm1 : (done ++ [m]).count m = done.count m + 1 := by
      rw [List.count_append]
      simp
    have hcount_le : (done ++ [m]).count m ≤ cnt g n m := by
      have h : cnt g n m = ((done ++ [m]) ++ rest).count m := by
        show (adjOf g n).count m = _
        rw [hadj]
      rw [h]
      simp only [List.count_append]
      omega
    have hinfS' : inflow g (sorted0 ++ [n]) m = inflow g sorted0 m + cnt g n m := by
      rw [inflow_append, inflow_single]
    have hinfle : inflow g (sorted0 ++ [n]) m ≤ indegN g m :=
      inflow_le_indegN g (sorted0 ++ [n]) m hwf.1 hsnod hsmem
    have hdeg'm : deg m - 1 =
        (indegN g m : Int) - (inflow g sorted0 m : Int) -
          (((done ++ [m]).count m : Nat) : Int) := by
      have h2 := hinv.hdeg m
      rw [hcm1]
      push_cast
      omega
    have hnonneg : (0 : Int) ≤ deg m - 1 := by
      rw [hdeg'm]
      have h1 := hinfS'
      have h2 := hinfle
      have h3 := hcount_le
      omega
    have hdeg'' : ∀ t, (if t = m then deg m - 1 else deg t) =
        (indegN g t : Int) - (inflow g sorted0 t : Int) -
          (((done ++ [m]).count t : Nat) : Int) := by
      intro t
      by_cases ht : t = m
      · subst ht
        rw [if_pos rfl]
        exact hdeg'm
      · rw [if_neg ht, hinv.hdeg t]
        have hc0 : (done ++ [m]).count t = done.count t := by
          rw [List.count_append]
          have : ([m].count t) = 0 := List.count_eq_zero.mpr (by simp [ht])
          omega
        rw [hc0]
    by_cases hq : deg m - 1 = 0
    · -- m is enqueued
      have hmnotq : m ∉ queue := by
        intro hmq
        have h0 := hinv.hq0 m hmq
        omega
      have hinfeq : inflow g (sorted0 ++ [n]) m = indegN g m := by
        have h1 := hdeg'm
        rw [hq] at h1
        omega
      have hmnotS : m ∉ sorted0 ++ [n] := by
        intro hmS
        have hz := hinv.hzero m hmS
        have h1 := hdeg'm
        rw [hq, hcm1] at h1
        push_cast at h1
        omega
      rw [processEdges_cons, if_pos hq]
      have hres := ih (done ++ [m])
        (fun x => if x = m then deg m - 1 else deg x) (queue ++ [m]) hadj
        { hdeg := hdeg''
          hq0 := by
            intro v hv
            show (if v = m then deg m - 1 else deg v) = 0
            rcases List.mem_append.mp hv with h | h
            · have hvne : v ≠ m := fun he => hmnotq (he ▸ h)
              rw [if_neg hvne]
              exact hinv.hq0 v h
            · rw [List.mem_singleton.mp h, if_pos rfl]
              exact hq
          hnd := by
            have h1 : ((sorted0 ++ [n]) ++ queue ++ [m]).Perm
                (m :: ((sorted0 ++ [n]) ++ queue)) :=
              List.perm_append_singleton m _
            rw [← List.append_assoc]
            refine h1.nodup_iff.mpr ?_
            refine List.nodup_cons.mpr ⟨?_, hinv.hnd⟩
            intro hmem
            rcases List.mem_append.mp hmem with h | h
            · exact hmnotS h
            · exact hmnotq h
          hqmem := by
            intro v hv
            rcases List.mem_append.mp hv with h | h
            · exact hinv.hqmem v h
            · exact (List.mem_singleton.mp h) ▸ hmnames
          hqpred := by
            intro v hv u hu
            rcases List.mem_append.mp hv with h | h
            · exact hinv.hqpred v h u hu
            · rw [List.mem_singleton.mp h] at hu
              exact mem_of_inflow_eq_indegN g (sorted0 ++ [n]) m hwf.1 hsnod
                hsmem hinfeq u hu
          hzero := hinv.hzero }
      rw [List.append_cons done m rest]
      exact hres
    · -- m is not enqueued
      rw [processEdges_cons, if_neg hq]
      have hres := ih (done ++ [m])
        (fun x => if x = m then deg m - 1 else deg x) queue hadj
        { hdeg := hdeg''
          hq0 := by
            intro v hv
            show (if v = m then deg m - 1 else deg v) = 0
            by_cases hvm : v = m
            · exfalso
              have h0 := hinv.hq0 v hv
              rw [hvm] at h0
              omega
            · rw [if_neg hvm]
              exact hinv.hq0 v hv
          hnd := hinv.hnd
          hqmem := hinv.hqmem
          hqpred := hinv.hqpred
          hzero := hinv.hzero }
      rw [List.append_cons done m rest]
      exact hres

/-- Invariant of the outer while loop of `Graph.sort`. -/
structure Inv (g : GraphData) (deg : String → Int) (queue sorted : List String) :
    Prop where
  hdeg : ∀ t, deg t = (indegN g t : Int) - (inflow g sorted t : Int)
  hq0 : ∀ v ∈ queue, deg v = 0
  hnd : (sorted ++ queue).Nodup
  hmem : ∀ v ∈ sorted ++ queue, v ∈ names g
  hqpred : ∀ v ∈ queue, ∀ u, v ∈ adjOf g u → u ∈ sorted
  hspred : ∀ v ∈ sorted, ∀ u, v ∈ adjOf g u → [u, v].Sublist sorted
  hzero : ∀ v ∈ sorted, (indegN g v : Int) ≤ (inflow g sorted v : Int)

/-- What holds of any list the work loop can produce. -/
structure SortOut (g : GraphData) (l : List String) : Prop where
  hnd : l.Nodup
  hmem : ∀ v ∈ l, v ∈ names g
  hspred : ∀ v ∈ l, ∀ u, v ∈ adjOf g u → [u, v].Sublist l

theorem sortOut_of_inv (g : GraphData) (deg : String → Int)
    (queue sorted : List String) (hinv : Inv g deg queue sorted) :
    SortOut g sorted :=
  { hnd := hinv.hnd.sublist (List.sublist_append_left _ _)
    hmem := fun v hv => hinv.hmem v (List.mem_append.mpr (Or.inl hv))
    hspred := hinv.hspred }

theorem kahnLoop_spec (g : GraphData) (hwf : WellFormed g) :
    ∀ fuel deg queue sorted, Inv g deg queue sorted →
      SortOut g (kahnLoop g fuel deg queue sorted) := by
  intro fuel
  induction fuel with
  | zero =>
    intro deg queue sorted hinv
    exact sortOut_of_inv g deg queue sorted hinv
  | succ fuel ih =>
    intro deg queue sorted hinv
    match queue with
    | [] => exact sortOut_of_inv g deg [] sorted hinv
    | n :: rest =>
      show SortOut g
        (kahnLoop g fuel (processEdges (adjOf g n) deg rest).1
          (processEdges (adjOf g n) deg rest).2 (sorted ++ [n]))
      have hnq : n ∈ n :: rest := List.mem_cons_self n rest
      have hnmem : n ∈ names g :=
        hinv.hmem n (List.mem_append.mpr (Or.inr hnq))
      have hsmem : ∀ v ∈ sorted ++ [n], v ∈ names g := by
        intro v hv
        rcases List.mem_append.mp hv with h | h
        · exact hinv.hmem v (List.mem_append.mpr (Or.inl h))
        · exact (List.mem_singleton.mp h) ▸ hnmem
      have hndcons : ((sorted ++ [n]) ++ rest).Nodup := by
        rw [← List.append_cons sorted n rest]
        exact hinv.hnd
      have hfinv : FInv g n sorted [] deg rest :=
        { hdeg := by
            intro t
            have := hinv.hdeg t
            simp only [List.count_nil]
            omega
          hq0 := fun v hv => hinv.hq0 v (List.mem_cons_of_mem n hv)
          hnd := hndcons
          hqmem := fun v hv =>
            hinv.hmem v (List.mem_append.mpr (Or.inr (List.mem_cons_of_mem n hv)))
          hqpred := by
            intro v hv u hu
            exact List.mem_append.mpr
              (Or.inl (hinv.hqpred v (List.mem_cons_of_mem n hv) u hu))
          hzero := by
            intro v hv
            rcases List.mem_append.mp hv with h | h
            · exact hinv.hzero v h
            · have hvn : v = n := List.mem_singleton.mp h
              subst hvn
              have h0 := hinv.hq0 v hnq
              have h1 := hinv.hdeg v
              omega }
      have hmain := processEdges_spec g hwf n sorted hsmem (adjOf g n) [] deg rest
        (by simp) hfinv
      simp only [List.nil_append] at hmain
      have hinv' : Inv g (processEdges (adjOf g n) deg rest).1
          (processEdges (adjOf g n) deg rest).2 (sorted ++ [n]) :=
        { hdeg := by
            intro t
            have h1 := hmain.hdeg t
            have h2 : inflow g (sorted ++ [n]) t =
                inflow g sorted t + cnt g n t := by
              rw [inflow_append, inflow_single]
            have h3 : (adjOf g n).count t = cnt g n t := rfl
            rw [h1, h2, h3]
            push_cast
            ring
          hq0 := hmain.hq0
          hnd := hmain.hnd
          hmem := by
            intro v hv
            rcases List.mem_append.mp hv with h | h
            · exact hsmem v h
            · exact hmain.hqmem v h
          hqpred := hmain.hqpred
          hspred := by
            intro v hv u hu
            rcases List.mem_append.mp hv with h | h
            · exact (hinv.hspred v h u hu).trans (List.sublist_append_left _ _)
            · have hvn : v = n := List.mem_singleton.mp h
              subst hvn
              have husort : u ∈ sorted := hinv.hqpred v hnq u hu
              have h1 : [u].Sublist sorted := List.singleton_sublist.mpr husort
              exact List.Sublist.append h1 (List.Sublist.refl [v])
          hzero := by
            intro v hv
            have h2 : inflow g (sorted ++ [n]) v =
                inflow g sorted v + cnt g n v := by
              rw [inflow_append, inflow_single]
            rcases List.mem_append.mp hv with h | h
            · have := hinv.hzero v h
              omega
            · have hvn : v = n := List.mem_singleton.mp h
              subst hvn
              have h0 := hinv.hq0 v hnq
              have h1 := hinv.hdeg v
              omega }
      exact ih _ _ _ hinv'

/-- The invariant holds at loop entry, for any admissible seed. -/
theorem initial_inv (g : GraphData) (hwf : WellFormed g) (seed : List String)
    (hseed : IsSeed g seed) : Inv g (deg0 g) seed [] := by
  have hmemseed : ∀ v ∈ seed, v ∈ names g ∧ indegN g v = 0 := by
    intro v hv
    have hv' : v ∈ canonicalSeed g := hseed.mem_iff.mp hv
    have := List.mem_filter.mp hv'
    exact ⟨this.1, by simpa using this.2⟩
  refine
    { hdeg := by
        intro t
        simp [deg0, inflow]
      hq0 := by
        intro v hv
        have := (hmemseed v hv).2
        simp [deg0, this]
      hnd := by
        simp only [List.nil_append]
        exact hseed.nodup_iff.mpr (List.Nodup.filter _ hwf.1)
      hmem := by
        intro v hv
        simp only [List.nil_append] at hv
        exact (hmemseed v hv).1
      hqpred := by
        intro v hv u hu
        exact absurd (indegN_pos g u v hu) (by
          have := (hmemseed v hv).2
          omega)
      hspred := by
        intro v hv
        exact absurd hv (List.not_mem_nil v)
      hzero := by
        intro v hv
        exact absurd hv (List.not_mem_nil v) }

/-! ## Cycles -/

/-- A cycle: a non-empty list of nodes `w :: cs` in which each element
has an edge to the next and the last has an edge back to `w`. -/
def IsCycle (g : GraphData) (c : List String) : Prop :=
  ∃ w cs, c = w :: cs ∧ List.Chain (fun a b => b ∈ adjOf g a) w (cs ++ [w])

theorem chain_pred {α : Type} (R : α → α → Prop) :
    ∀ (l : List α) (w : α), List.Chain R w l →
      ∀ v ∈ l, ∃ u ∈ w :: l, R u v := by
  intro l
  induction l with
  | nil =>
    intro w _ v hv
    exact absurd hv (List.not_mem_nil v)
  | cons b l' ih =>
    intro w hch v hv
    have hch' := List.chain_cons.mp hch
    rcases List.mem_cons.mp hv with h | h
    · exact ⟨w, List.mem_cons_self _ _, h ▸ hch'.1⟩
    · obtain ⟨u, hu, hr⟩ := ih b hch'.2 v h
      exact ⟨u, List.mem_cons_of_mem w hu, hr⟩

theorem cycle_pred (g : GraphData) (c : List String) (hc : IsCycle g c) :
    ∀ v ∈ c, ∃ u ∈ c, v ∈ adjOf g u := by
  obtain ⟨w, cs, hceq, hchain⟩ := hc
  subst hceq
  intro v hv
  have hv' : v ∈ cs ++ [w] := by
    rcases List.mem_cons.mp hv with h | h
    · exact List.mem_append.mpr (Or.inr (List.mem_singleton.mpr h))
    · exact List.mem_append.mpr (Or.inl h)
  obtain ⟨u, hu, hr⟩ := chain_pred _ (cs ++ [w]) w hchain v hv'
  refine ⟨u, ?_, hr⟩
  rcases List.mem_cons.mp hu with h | h
  · exact h ▸ List.mem_cons_self w cs
  · rcases List.mem_append.mp h with h2 | h2
    · exact List.mem_cons_of_mem w h2
    · exact (List.mem_singleton.mp h2) ▸ List.mem_cons_self w cs

theorem indexOf_lt_of_pair_sublist {l : List String} (hnd : l.Nodup)
    (u v : String) (h : [u, v].Sublist l) : l.indexOf u < l.indexOf v := by
  induction l with
  | nil => cases h
  | cons a rest ih =>
    have hand := List.nodup_cons.mp hnd
    cases h with
    | cons _ h' =>
      have humem : u ∈ rest := h'.subset (List.mem_cons_self u [v])
      have hvmem : v ∈ rest :=
        h'.subset (List.mem_cons_of_mem u (List.mem_singleton.mpr rfl))
      have hua : u ≠ a := fun he => hand.1 (he ▸ humem)
      have hva : v ≠ a := fun he => hand.1 (he ▸ hvmem)
      rw [List.indexOf_cons_ne rest (Ne.symm hua),
        List.indexOf_cons_ne rest (Ne.symm hva)]
      exact Nat.succ_lt_succ (ih hand.2 h')
    | cons₂ _ h' =>
      have hvmem : v ∈ rest := h'.subset (List.mem_singleton.mpr rfl)
      have hvu : v ≠ u := fun he => hand.1 (he ▸ hvmem)
      rw [List.indexOf_cons_self u rest, List.indexOf_cons_ne rest (Ne.symm hvu)]
      exact Nat.succ_pos _

theorem cycle_not_mem_out (g : GraphData) (l : List String)
    (hout : SortOut g l) (c : List String) (hc : IsCycle g c) :
    ∀ v ∈ c, v ∉ l := by
  have key : ∀ k v, v ∈ c → v ∈ l → l.indexOf v = k → False := by
    intro k
    induction k using Nat.strong_induction_on with
    | _ k ihk =>
      intro v hvc hvl hidx
      obtain ⟨u, huc, hedge⟩ := cycle_pred g c hc v hvc
      have hsub := hout.hspred v hvl u hedge
      have hul : u ∈ l := hsub.subset (List.mem_cons_self u [v])
      have hlt : l.indexOf u < l.indexOf v :=
        indexOf_lt_of_pair_sublist hout.hnd u v hsub
      exact ihk (l.indexOf u) (hidx ▸ hlt) u huc hul rfl
  intro v hvc hvl
  exact key (l.indexOf v) v hvc hvl rfl

/-! ## `Graph.sort` theorems -/

theorem names_length (g : GraphData) : (names g).length = g.length :=
  List.length_map g Prod.fst

theorem kahnLoop_out (g : GraphData) (hwf : WellFormed g) (seed : List String)
    (hseed : IsSeed g seed) :
    SortOut g (kahnLoop g (g.length + 1) (deg0 g) seed []) :=
  kahnLoop_spec g hwf (g.length + 1) (deg0 g) seed []
    (initial_inv g hwf seed hseed)

theorem kahnSort_ok_sublist (g : GraphData) (seed : List String)
    (hwf : WellFormed g) (hseed : IsSeed g seed) (l : List String)
    (hok : kahnSort g seed = .ok l) :
    ∀ u v, v ∈ adjOf g u → [u, v].Sublist l := by
  intro u v hedge
  have hout := kahnLoop_out g hwf seed hseed
  unfold kahnSort at hok
  by_cases hlen : (kahnLoop g (g.length + 1) (deg0 g) seed []).length = g.length
  · rw [if_pos hlen] at hok
    have hl : kahnLoop g (g.length + 1) (deg0 g) seed [] = l :=
      Except.ok.inj hok
    subst hl
    -- under the length condition the output enumerates every node
    have hsp : (kahnLoop g (g.length + 1) (deg0 g) seed []).Subperm (names g) :=
      List.Nodup.subperm hout.hnd hout.hmem
    obtain ⟨l', hperm, hsl⟩ := hsp
    have hlen' : l'.length = (names g).length := by
      rw [hperm.length_eq, hlen, names_length]
    have hl'eq : l' = names g := hsl.eq_of_length hlen'
    have hperm2 : (kahnLoop g (g.length + 1) (deg0 g) seed []).Perm (names g) :=
      hl'eq ▸ hperm.symm
    have hvl : v ∈ kahnLoop g (g.length + 1) (deg0 g) seed [] :=
      hperm2.mem_iff.mpr (closed_adjOf g hwf u v hedge)
    exact hout.hspred v hvl u hedge
  · rw [if_neg hlen] at hok
    cases hok

theorem kahnSort_cycle_err (g : GraphData) (seed : List String)
    (hwf : WellFormed g) (hseed : IsSeed g seed) (c : List String)
    (hc : IsCycle g c) :
    kahnSort g seed = .error .circularDependency := by
  have hout := kahnLoop_out g hwf seed hseed
  obtain ⟨w, cs, hceq, _⟩ := id hc
  have hwc : w ∈ c := hceq ▸ List.mem_cons_self w cs
  obtain ⟨u, _, hedge⟩ := cycle_pred g c hc w hwc
  have hwnames : w ∈ names g := closed_adjOf g hwf u w hedge
  have hwnotl : w ∉ kahnLoop g (g.length + 1) (deg0 g) seed [] :=
    cycle_not_mem_out g _ hout c hc w hwc
  have hsub : ∀ x ∈ kahnLoop g (g.length + 1) (deg0 g) seed [],
      x ∈ (names g).erase w := by
    intro x hx
    have hxw : x ≠ w := fun he => hwnotl (he ▸ hx)
    exact List.mem_erase_of_ne hxw |>.mpr (hout.hmem x hx)
  have hsp := List.Nodup.subperm hout.hnd hsub
  have h1 : (kahnLoop g (g.length + 1) (deg0 g) seed []).length ≤
      ((names g).erase w).length := hsp.length_le
  have h2 : ((names g).erase w).length = (names g).length - 1 :=
    List.length_erase_of_mem hwnames
  have h3 : 0 < (names g).length := List.length_pos_of_mem hwnames
  have h4 : (names g).length = g.length := names_length g
  have hlen : (kahnLoop g (g.length + 1) (deg0 g) seed []).length ≠ g.length := by
    omega
  unfold kahnSort
  rw [if_neg hlen]

/-- C1: for every well-formed graph and any admissible seed order, a
successful `Sort()` places every dependency strictly before its
dependent (every edge source appears strictly before its target in the
output), and for every graph containing a cycle `Sort()` fails with the
circular-dependency error. -/
theorem C1_topological_sort_correct :
    (∀ g seed l u v, WellFormed g → IsSeed g seed →
        kahnSort g seed = Except.ok l → v ∈ adjOf g u → [u, v].Sublist l) ∧
    (∀ g seed c, WellFormed g → IsSeed g seed → IsCycle g c →
        kahnSort g seed = Except.error GraphErr.circularDependency) := by
  constructor
  · intro g seed l u v hwf hseed hok hedge
    exact kahnSort_ok_sublist g seed hwf hseed l hok u v hedge
  · intro g seed c hwf hseed hc
    exact kahnSort_cycle_err g seed hwf hseed c hc

/-- Witness for C1: on the two-node graph a → b the sort places a before
b, and on the two-cycle a ⇄ b the sort fails. -/
theorem C1_topological_sort_correct_witness :
    [("a" : String), "b"].Sublist ["a", "b"] ∧
    kahnSort [("a", ["b"]), ("b", ["a"])] [] =
      Except.error GraphErr.circularDependency := by
  constructor
  · exact C1_topological_sort_correct.1 [("a", ["b"]), ("b", [])] ["a"]
      ["a", "b"] "a" "b" (by decide) (by decide) rfl (by decide)
  · exact C1_topological_sort_correct.2 [("a", ["b"]), ("b", ["a"])] []
      ["a", "b"] (by decide) (by decide)
      ⟨"a", ["b"], rfl,
        List.Chain.cons (by decide) (List.Chain.cons (by decide) List.Chain.nil)⟩

/-- C6 counterexample: `AddNode` does not invalidate the cached order.
After caching the order of the one-node graph, adding node "b" and
calling `Sort()` again returns the stale cached list `["a"]`, which
misses the new node "b" of the mutated graph. -/
theorem C6_addNode_keeps_stale_cache :
    (GraphS.new.addNode "a" []).sortC =
      Except.ok (["a"], ⟨[("a", [])], some ["a"]⟩) ∧
    ((⟨[("a", [])], some ["a"]⟩ : GraphS).addNode "b" []).sortC =
      Except.ok (["a"], ⟨[("a", []), ("b", [])], some ["a"]⟩) ∧
    "b" ∈ names [("a", []), ("b", [])] ∧ "b" ∉ (["a"] : List String) := by
  exact ⟨rfl, rfl, by decide, by decide⟩

/-- C6 (amended): adding an edge through `Graph.AddEdge` or
`Graph.AddEdgeByName` clears the cached order, and a `Sort()` on a graph
with an empty cache recomputes from the current node set; adding a node
leaves the cache untouched. -/
theorem C6_edge_mutation_invalidates_cache :
    (∀ g s ts g', GraphS.addEdge g s ts = .ok g' → g'.cachedOrder = none) ∧
    (∀ g s ts g', GraphS.addEdgeByName g s ts = .ok g' →
      g'.cachedOrder = none) ∧
    (∀ g n es, (GraphS.addNode g n es).cachedOrder = g.cachedOrder) ∧
    (∀ g : GraphS, g.cachedOrder = none →
      g.sortC = (graphSort g.nodes).map
        (fun l => (l, { g with cachedOrder := some l }))) := by
  refine ⟨?_, ?_, ?_, ?_⟩
  · intro g s ts g' h
    unfold GraphS.addEdge at h
    by_cases hc : (names g.nodes).contains s
    · rw [if_pos hc] at h
      cases h
      rfl
    · rw [if_neg hc] at h
      cases h
  · intro g s ts g' h
    unfold GraphS.addEdgeByName at h
    by_cases hc : (names g.nodes).contains s
    · rw [if_pos hc] at h
      by_cases ht : ts.all (fun t => (names g.nodes).contains t)
      · rw [if_pos ht] at h
        cases h
        rfl
      · rw [if_neg ht] at h
        cases h
    · rw [if_neg hc] at h
      cases h
  · intro g n es
    unfold GraphS.addNode
    by_cases hc : (names g.nodes).contains n
    · rw [if_pos hc]
    · rw [if_neg hc]
  · intro g h
    unfold GraphS.sortC
    rw [h]
    cases hg : graphSort g.nodes with
    | ok l => rfl
    | error e => rfl

/-- Witness for C6 (amended) at concrete graphs. -/
theorem C6_edge_mutation_invalidates_cache_witness :
    (⟨[("a", ["a"])], none⟩ : GraphS).cachedOrder = none ∧
    (⟨[("a", ["a"])], none⟩ : GraphS).cachedOrder = none ∧
    (GraphS.addNode ⟨[], some []⟩ "a" []).cachedOrder = some [] ∧
    GraphS.sortC ⟨[("a", [])], none⟩ =
      Except.ok (["a"], ⟨[("a", [])], some ["a"]⟩) := by
  refine ⟨?_, ?_, ?_, ?_⟩
  · exact C6_edge_mutation_invalidates_cache.1 ⟨[("a", [])], some ["a"]⟩
      "a" ["a"] ⟨[("a", ["a"])], none⟩ rfl
  · exact C6_edge_mutation_invalidates_cache.2.1 ⟨[("a", [])], some ["a"]⟩
      "a" ["a"] ⟨[("a", ["a"])], none⟩ rfl
  · exact C6_edge_mutation_invalidates_cache.2.2.1 ⟨[], some []⟩ "a" []
  · have h := C6_edge_mutation_invalidates_cache.2.2.2 ⟨[("a", [])], none⟩ rfl
    rw [h]
    rfl

/-! ## Resource data (pkg/resource)

The agent is an external collaborator; its responses are oracle
parameters of each operation.  Go's `State` is a string type whose zero
value "" never equals `absent` or `present`; it is folded into
`unknown`, which the compared branches treat identically. -/

inductive State where
  | unknown
  | absent
  | present
deriving DecidableEq

inductive Operation where
  | none
  | create
  | update
  | delete
deriving DecidableEq

/-- `models.FileProperties`. -/
structure FileProps where
  mode : String
  owner : String
  group : String
  checksum : String
deriving DecidableEq

/-- The desired `fileProperties` (pointer fields: unset = `none`). -/
structure FilePropsD where
  mode : Option String
  owner : Option String
  group : Option String
deriving DecidableEq

/-- The `File` resource: desired configuration plus observed state. -/
structure FileR where
  desiredState : State
  path : String
  desiredProperties : FilePropsD
  currentState : State := State.unknown
  currentProperties : Option FileProps := Option.none
  etag : String := ""
  lastOperation : Operation := Operation.none
deriving DecidableEq

/-- Resource-level errors (`APIError`, wrapped client failures, …). -/
inductive FErr where
  | api (code : Int) (msg : String)
  | checkFailed
  | emptyPayload
  | applyFailed
  | nilResponse
  | noPropsToRollback
  | deleteFailed
  | putFailed
  | restoreFailed
  | noBackupFile
deriving DecidableEq

/-- Outcome of the agent's get-file-properties call, as seen by `Check`. -/
inductive GetResp where
  | notFound
  | apiErr (code : Int) (msg : String)
  | otherErr
  | okNone
  | ok (props : FileProps) (etag : String)

/-- Outcome of the agent's DELETE call. -/
inductive DelResp where
  | ok
  | apiErr (code : Int) (msg : String)
  | otherErr
deriving DecidableEq

/-- Outcome of the agent's PUT call (`created`/`noContent` carry the
fresh entity tag). -/
inductive PutResp where
  | created (etag : String)
  | noContent (etag : String)
  | apiErr (code : Int) (msg : String)
  | otherErr
  | nilBoth
deriving DecidableEq

/-- Outcome of the content upload call used by rollback-from-backup. -/
inductive UpResp where
  | ok
  | apiErr (code : Int) (msg : String)
  | otherErr
deriving DecidableEq

/-- A request issued to the agent, with the `If-Match` header recorded. -/
inductive AgentCall where
  | delete (path : String) (ifMatch : Option String)
  | put (path : String) (props : FileProps) (ifMatch : Option String)
  | upload (path : String)
deriving DecidableEq

/-- `File.propertiesMatch`: unset desired fields always match. -/
def propertiesMatch (f : FileR) : Bool :=
  match f.currentProperties with
  | Option.none => false
  | some cp =>
    (f.desiredProperties.mode.all (fun m => m == cp.mode)) &&
    (f.desiredProperties.owner.all (fun o => o == cp.owner)) &&
    (f.desiredProperties.group.all (fun gr => gr == cp.group))

/-- `File.Check`: returns the updated resource (observed state is
mutated in place in Go) and `(needsApply, err)`. -/
def fileCheck (f : FileR) (resp : GetResp) : FileR × Except FErr Bool :=
  match resp with
  | .notFound =>
    ({ f with
        currentState := State.absent
        currentProperties := Option.none
        etag := "" },
      .ok (decide (f.desiredState = State.present)))
  | .apiErr c m => (f, .error (.api c m))
  | .otherErr => (f, .error .checkFailed)
  | .okNone => (f, .error .emptyPayload)
  | .ok props etag =>
    let f' := { f with
        currentState := State.present
        currentProperties := some props
        etag := etag }
    if f'.desiredState = State.absent then (f', .ok true)
    else (f', .ok (!(propertiesMatch f')))

/-- One compare line of `File.Diff` (`%q`-quoted old/new pair, empty
when the desired field is unset or matches). -/
def compareLine (nm : String) (desired : Option String) (actual : String) :
    String :=
  match desired with
  | Option.none => ""
  | some d =>
    if d = actual then ""
    else "- " ++ nm ++ ": \"" ++ actual ++ "\"\n+ " ++ nm ++ ": \"" ++ d ++ "\"\n"

/-- `File.Diff`.  The Go source writes the `diff -- file:` header into
the builder before comparing fields and then returns "" only when the
builder is empty; `desiredProperties` is never nil (set by the
constructor), so that nil check is omitted. -/
def fileDiff (f : FileR) : Except FErr String :=
  if f.desiredState = State.absent ∧ f.currentState = State.present then
    .ok ("diff -- file: " ++ f.path ++ "\n- present (file will be deleted)\n")
  else if f.desiredState = State.present ∧ f.currentState = State.absent then
    .ok ("diff -- file: " ++ f.path ++ "\n+ present (file will be created)\n")
  else
    match f.currentProperties with
    | Option.none => .error .checkFailed
    | some cp =>
      let s := "diff -- file: " ++ f.path ++ "\n" ++
        compareLine "mode" f.desiredProperties.mode cp.mode ++
        compareLine "owner" f.desiredProperties.owner cp.owner ++
        compareLine "group" f.desiredProperties.group cp.group
      if s.length = 0 then .ok "" else .ok s

/-- `File.Apply`: returns the updated resource, the error, and the
agent call that was issued (with its `If-Match` header), if any. -/
def fileApply (f : FileR) (del : DelResp) (put : PutResp) :
    FileR × Option FErr × Option AgentCall :=
  let f0 := { f with lastOperation := Operation.none }
  if f0.desiredState = State.absent then
    if f0.currentState = f0.desiredState then (f0, Option.none, Option.none)
    else
      let im := if f0.etag ≠ "" then some f0.etag else Option.none
      let call := AgentCall.delete f0.path im
      match del with
      | .apiErr c m => (f0, some (.api c m), some call)
      | .otherErr => (f0, some .applyFailed, some call)
      | .ok => ({ f0 with lastOperation := Operation.delete }, Option.none, some call)
  else
    let props : FileProps :=
      { mode := f0.desiredProperties.mode.getD ""
        owner := f0.desiredProperties.owner.getD ""
        group := f0.desiredProperties.group.getD ""
        checksum := "" }
    let im := if f0.currentProperties.isSome ∧ f0.etag ≠ "" then some f0.etag
      else Option.none
    let call := AgentCall.put f0.path props im
    match put with
    | .apiErr c m => (f0, some (.api c m), some call)
    | .otherErr => (f0, some .applyFailed, some call)
    | .created etag =>
      ({ f0 with lastOperation := Operation.create, etag := etag },
        Option.none, some call)
    | .noContent etag =>
      ({ f0 with lastOperation := Operation.update, etag := etag },
        Option.none, some call)
    | .nilBoth => (f0, some .nilResponse, some call)

/-- `File.Rollback`, switching on `lastOperation`; `backupExists` is the
`os.Stat` probe of the backup artifact. -/
def fileRollback (f : FileR) (del : DelResp) (put : PutResp)
    (backupExists : Bool) (up : UpResp) : FileR × Option FErr × Option AgentCall :=
  match f.lastOperation with
  | Operation.none => (f, Option.none, Option.none)
  | Operation.create =>
    let call := AgentCall.delete f.path (some f.etag)
    match del with
    | .apiErr c m => (f, some (.api c m), some call)
    | .otherErr => (f, some .deleteFailed, some call)
    | .ok => (f, Option.none, some call)
  | Operation.update =>
    match f.currentProperties with
    | Option.none => (f, some .noPropsToRollback, Option.none)
    | some cp =>
      let props : FileProps :=
        { mode := cp.mode, owner := cp.owner, group := cp.group, checksum := "" }
      let im := if f.etag ≠ "" then some f.etag else Option.none
      let call := AgentCall.put f.path props im
      match put with
      | .apiErr c m => (f, some (.api c m), some call)
      | .otherErr => (f, some .putFailed, some call)
      | _ => (f, Option.none, some call)
  | Operation.delete =>
    if backupExists then
      let call := AgentCall.upload f.path
      match up with
      | .apiErr c m => (f, some (.api c m), some call)
      | .otherErr => (f, some .restoreFailed, some call)
      | .ok => (f, Option.none, some call)
    else (f, some .noBackupFile, Option.none)

theorem propertiesMatch_false_iff (f : FileR) (cp : FileProps)
    (h : f.currentProperties = some cp) :
    propertiesMatch f = false ↔
      ((∃ m, f.desiredProperties.mode = some m ∧ m ≠ cp.mode) ∨
       (∃ o, f.desiredProperties.owner = some o ∧ o ≠ cp.owner) ∨
       (∃ gr, f.desiredProperties.group = some gr ∧ gr ≠ cp.group)) := by
  unfold propertiesMatch
  rw [h]
  rcases hdp : f.desiredProperties with ⟨mo, ow, gr⟩
  cases mo <;> cases ow <;> cases gr <;>
    simp [Option.all, beq_iff_eq] <;> tauto

/-- C4: `File.Check` on 404 records the file absent (clearing the
observed properties and tag) and reports drift exactly when the desired
state is `present`; on success it stores the returned properties and
entity tag and reports drift exactly when the desired state is `absent`
or some explicitly set desired field differs from the current value (an
unset desired field is never drift). -/
theorem C4_file_check_behavior :
    (∀ f : FileR,
      (fileCheck f GetResp.notFound).1.currentState = State.absent ∧
      (fileCheck f GetResp.notFound).1.currentProperties = Option.none ∧
      (fileCheck f GetResp.notFound).1.etag = "" ∧
      ((fileCheck f GetResp.notFound).2 = Except.ok true ↔
        f.desiredState = State.present) ∧
      ((fileCheck f GetResp.notFound).2 = Except.ok false ↔
        ¬f.desiredState = State.present)) ∧
    (∀ f props etag,
      (fileCheck f (GetResp.ok props etag)).1 =
        { f with
            currentState := State.present
            currentProperties := some props
            etag := etag } ∧
      ((fileCheck f (GetResp.ok props etag)).2 = Except.ok true ↔
        (f.desiredState = State.absent ∨
          (∃ m, f.desiredProperties.mode = some m ∧ m ≠ props.mode) ∨
          (∃ o, f.desiredProperties.owner = some o ∧ o ≠ props.owner) ∨
          (∃ gr, f.desiredProperties.group = some gr ∧ gr ≠ props.group)))) := by
  constructor
  · intro f
    refine ⟨rfl, rfl, rfl, ?_, ?_⟩
    · simp [fileCheck]
    · simp [fileCheck]
  · intro f props etag
    constructor
    · show (if f.desiredState = State.absent then _ else _ : FileR × _).1 = _
      split <;> rfl
    · have hcp : ({ f with
          currentState := State.present
          currentProperties := some props
          etag := etag } : FileR).currentProperties = some props := rfl
      have hpm := propertiesMatch_false_iff _ props hcp
      by_cases h : f.desiredState = State.absent
      · simp [fileCheck, h]
      · show ((if f.desiredState = State.absent then _ else _ :
            FileR × Except FErr Bool)).2 = _ ↔ _
        rw [if_neg h]
        simp only [Except.ok.injEq, Bool.not_eq_true']
        rw [hpm]
        simp [h]

/-- C5: `File.Apply` — desired absent and observed absent is a no-op
leaving `lastOperation = none`; desired absent and observed present
issues DELETE with `If-Match` set to the stored tag and records
`delete` on success; desired present issues PUT with the desired
properties, attaches `If-Match` only when the file was observed
present, records `create` on 201 and `update` on 204, and stores the
returned entity tag. -/
theorem C5_file_apply_behavior :
    (∀ f del put, f.desiredState = State.absent →
      f.currentState = State.absent →
      fileApply f del put =
        ({ f with lastOperation := Operation.none }, Option.none, Option.none)) ∧
    (∀ f del put, f.desiredState = State.absent →
      f.currentState = State.present → f.etag ≠ "" →
      (fileApply f del put).2.2 = some (AgentCall.delete f.path (some f.etag)) ∧
      (del = DelResp.ok →
        (fileApply f del put).1.lastOperation = Operation.delete ∧
        (fileApply f del put).2.1 = Option.none)) ∧
    (∀ f del put, f.desiredState = State.present →
      ∃ props im,
        (fileApply f del put).2.2 = some (AgentCall.put f.path props im) ∧
        props.mode = f.desiredProperties.mode.getD "" ∧
        props.owner = f.desiredProperties.owner.getD "" ∧
        props.group = f.desiredProperties.group.getD "" ∧
        (f.currentProperties = Option.none → im = Option.none) ∧
        (f.currentProperties.isSome → f.etag ≠ "" → im = some f.etag)) ∧
    (∀ f del put e, f.desiredState = State.present → put = PutResp.created e →
      (fileApply f del put).1.lastOperation = Operation.create ∧
      (fileApply f del put).1.etag = e) ∧
    (∀ f del put e, f.desiredState = State.present → put = PutResp.noContent e →
      (fileApply f del put).1.lastOperation = Operation.update ∧
      (fileApply f del put).1.etag = e) := by
  have habs : ∀ f : FileR,
      ({ f with lastOperation := Operation.none } : FileR).desiredState =
        f.desiredState := fun f => rfl
  refine ⟨?_, ?_, ?_, ?_, ?_⟩
  · intro f del put h1 h2
    unfold fileApply
    rw [if_pos (by simpa using h1), if_pos (by simp [h1, h2])]
  · intro f del put h1 h2 h3
    unfold fileApply
    rw [if_pos (by simpa using h1)]
    rw [if_neg (by simp [h1, h2])]
    rw [if_pos (by simpa using h3)]
    cases del <;> simp
  · intro f del put h1
    unfold fileApply
    rw [if_neg (by simp [h1])]
    refine ⟨{ mode := f.desiredProperties.mode.getD ""
              owner := f.desiredProperties.owner.getD ""
              group := f.desiredProperties.group.getD ""
              checksum := "" },
        if f.currentProperties.isSome ∧ f.etag ≠ "" then some f.etag
          else Option.none,
        ?_, rfl, rfl, rfl, ?_, ?_⟩
    · cases put <;> rfl
    · intro hnone
      rw [if_neg (by simp [hnone])]
    · intro hsome hne
      rw [if_pos (by simpa using ⟨hsome, hne⟩)]
  · intro f del put e h1 h2
    subst h2
    unfold fileApply
    rw [if_neg (by simp [h1])]
    exact ⟨rfl, rfl⟩
  · intro f del put e h1 h2
    subst h2
    unfold fileApply
    rw [if_neg (by simp [h1])]
    exact ⟨rfl, rfl⟩

/-- Witness for C5 at a concrete file resource in each case. -/
theorem C5_file_apply_behavior_witness :
    (fileApply
        { desiredState := State.absent, path := "/p",
          desiredProperties := ⟨Option.none, Option.none, Option.none⟩,
          currentState := State.absent }
        DelResp.ok PutResp.nilBoth =
      ({ desiredState := State.absent, path := "/p",
          desiredProperties := ⟨Option.none, Option.none, Option.none⟩,
          currentState := State.absent }, Option.none, Option.none)) ∧
    ((fileApply
        { desiredState := State.absent, path := "/p",
          desiredProperties := ⟨Option.none, Option.none, Option.none⟩,
          currentState := State.present, etag := "W/1" }
        DelResp.ok PutResp.nilBoth).2.2 =
      some (AgentCall.delete "/p" (some "W/1"))) ∧
    ((fileApply
        { desiredState := State.present, path := "/p",
          desiredProperties := ⟨some "0644", Option.none, Option.none⟩ }
        DelResp.ok (PutResp.created "W/2")).1.lastOperation =
      Operation.create) := by
  refine ⟨?_, ?_, ?_⟩
  · exact C5_file_apply_behavior.1 _ DelResp.ok PutResp.nilBoth rfl rfl
  · exact (C5_file_apply_behavior.2.1 _ DelResp.ok PutResp.nilBoth rfl rfl
      (by decide)).1
  · exact (C5_file_apply_behavior.2.2.2.1 _ DelResp.ok _ "W/2" rfl rfl).1

/-- A file resource observed present whose explicitly set desired
properties all equal the current properties. -/
def c7File : FileR :=
  { desiredState := State.present
    path := "/etc/foo"
    desiredProperties := ⟨some "0644", Option.none, Option.none⟩
    currentState := State.present
    currentProperties := some ⟨"0644", "root", "root", "abc"⟩
    etag := "W/1"
    lastOperation := Operation.none }

/-- C7 (code bug evidence): on a drift-free present file, `File.Diff`
returns the bare header line rather than the empty string, because the
header is written into the builder before the emptiness check, making
the `sb.Len() == 0` branch unreachable. -/
theorem C7_diff_returns_header_on_no_drift :
    propertiesMatch c7File = true ∧
    fileDiff c7File = Except.ok "diff -- file: /etc/foo\n" ∧
    ("diff -- file: /etc/foo\n" : String) ≠ "" := by
  refine ⟨rfl, rfl, by decide⟩

theorem fileRollback_noop (f : FileR) (h : f.lastOperation = Operation.none) :
    ∀ del put bex up, fileRollback f del put bex up =
      (f, Option.none, Option.none) := by
  intro del put bex up
  unfold fileRollback
  rw [h]

/-- C9: `File.Apply` resets `lastOperation` before any work, so every
error return leaves it at `none`, and rolling back such a resource
issues no agent call and returns nil. -/
theorem C9_apply_error_leaves_rollback_noop :
    ∀ f del put e, (fileApply f del put).2.1 = some e →
      (fileApply f del put).1.lastOperation = Operation.none ∧
      ∀ del2 put2 bex up,
        fileRollback (fileApply f del put).1 del2 put2 bex up =
          ((fileApply f del put).1, Option.none, Option.none) := by
  intro f del put e herr
  have hnone : (fileApply f del put).1.lastOperation = Operation.none := by
    unfold fileApply at herr ⊢
    by_cases h1 : ({ f with lastOperation := Operation.none } : FileR).desiredState
        = State.absent
    · rw [if_pos h1] at herr ⊢
      by_cases h2 : ({ f with lastOperation := Operation.none } : FileR).currentState
          = ({ f with lastOperation := Operation.none } : FileR).desiredState
      · rw [if_pos h2]
      · rw [if_neg h2] at herr ⊢
        cases del <;> simp_all
    · rw [if_neg h1] at herr ⊢
      cases put <;> simp_all
  exact ⟨hnone, fileRollback_noop _ hnone⟩

/-- Witness for C9: a PUT failure leaves `lastOperation = none` and the
subsequent rollback is a no-op. -/
theorem C9_apply_error_leaves_rollback_noop_witness :
    ((fileApply
        { desiredState := State.present, path := "/p",
          desiredProperties := ⟨Option.none, Option.none, Option.none⟩ }
        DelResp.ok PutResp.otherErr).2.1 = some FErr.applyFailed) ∧
    (fileApply
        { desiredState := State.present, path := "/p",
          desiredProperties := ⟨Option.none, Option.none, Option.none⟩ }
        DelResp.ok PutResp.otherErr).1.lastOperation = Operation.none := by
  refine ⟨rfl, ?_⟩
  exact (C9_apply_error_leaves_rollback_noop
    { desiredState := State.present, path := "/p",
      desiredProperties := ⟨Option.none, Option.none, Option.none⟩ }
    DelResp.ok PutResp.otherErr FErr.applyFailed rfl).1

/-! ## Command resource (pkg/resource/command.go) -/

/-- The `Command` resource configuration. -/
structure CommandR where
  command : String
  isConcurrent : Bool
  timeout : Int
  expectedExitCodes : List Int
deriving DecidableEq

/-- A request to the agent's command endpoint. -/
inductive CommandCall where
  | execute (command : String) (expected : List Int)
deriving DecidableEq

/-- `Command.Check`: literally `return true, nil`; no agent call. -/
def commandCheck (_c : CommandR) : (Bool × Option FErr) × Option CommandCall :=
  ((true, Option.none), Option.none)

/-- `Command.Backup`: literally `return false, nil`; no agent call. -/
def commandBackup (_c : CommandR) : (Bool × Option FErr) × Option CommandCall :=
  ((false, Option.none), Option.none)

/-- `Command.Rollback`: literally `return nil`; no agent call. -/
def commandRollback (_c : CommandR) : Option FErr × Option CommandCall :=
  (Option.none, Option.none)

/-- C8: for every command resource, `Check` returns `(true, nil)`,
`Backup` returns `(false, nil)` and `Rollback` returns nil, none of
them issuing an agent call. -/
theorem C8_command_static_lifecycle :
    ∀ c : CommandR,
      commandCheck c = ((true, Option.none), Option.none) ∧
      commandBackup c = ((false, Option.none), Option.none) ∧
      commandRollback c = (Option.none, Option.none) :=
  fun _ => ⟨rfl, rfl, rfl⟩

/-! ## Orchestrator (pkg/orchestrator)

`Run` first wires and sorts the graph (modelled above); the execution
loop below takes the sorted node list and consults per-resource oracles
for the outcome of each lifecycle call.  Error values are modelled by
their presence. -/

inductive AddErr where
  | emptyId
  | duplicate
  | validation
deriving DecidableEq

/-- A `ResourceSpec`; `validateRes` is `none` when the resource does not
implement `Validatable`, otherwise `some b` with `b` the success of
`Validate()`. -/
structure SpecR where
  id : String
  deps : List String
  validateRes : Option Bool
deriving DecidableEq

/-- Orchestrator state: the spec registry and the graph. -/
structure OrchState where
  specs : List (String × SpecR)
  g : GraphS
deriving DecidableEq

def lookupSpec : List (String × SpecR) → String → Option SpecR
  | [], _ => Option.none
  | (k, v) :: rest, id => if id = k then some v else lookupSpec rest id

/-- `Orchestrator.Add`: reject empty id, duplicates, and failed
validation, in that order, before registering the spec and adding the
graph node. -/
def orchAdd (o : OrchState) (rs : SpecR) : OrchState × Option AddErr :=
  if rs.id = "" then (o, some AddErr.emptyId)
  else if (lookupSpec o.specs rs.id).isSome then (o, some AddErr.duplicate)
  else
    match rs.validateRes with
    | some false => (o, some AddErr.validation)
    | _ =>
      ({ specs := o.specs ++ [(rs.id, rs)], g := o.g.addNode rs.id [] },
        Option.none)

/-- C10: whenever `Add` returns an error (empty id, duplicate id, or a
failed `Validate`), the orchestrator state is unchanged: no spec is
registered and no graph node is added. -/
theorem C10_add_error_state_unchanged :
    ∀ o rs e, (orchAdd o rs).2 = some e → (orchAdd o rs).1 = o := by
  intro o rs e h
  unfold orchAdd at h ⊢
  by_cases h1 : rs.id = ""
  · rw [if_pos h1]
  · rw [if_neg h1] at h ⊢
    by_cases h2 : (lookupSpec o.specs rs.id).isSome
    · rw [if_pos h2]
    · rw [if_neg h2] at h ⊢
      cases hv : rs.validateRes with
      | none =>
        rw [hv] at h
        simp at h
      | some b =>
        cases b with
        | false => rfl
        | true =>
          rw [hv] at h
          simp at h

/-- Witness for C10: adding a spec with an empty id fails and leaves the
fresh orchestrator unchanged. -/
theorem C10_add_error_state_unchanged_witness :
    (orchAdd ⟨[], GraphS.new⟩ ⟨"", [], Option.none⟩).1 = ⟨[], GraphS.new⟩ :=
  C10_add_error_state_unchanged ⟨[], GraphS.new⟩ ⟨"", [], Option.none⟩
    AddErr.emptyId rfl

/-- One `Attempt`, with error fields modelled by their presence.  The
rollback outcome fields are carried by the rollback procedure's result
(`rollbackRun`) instead of being written back into the attempt. -/
structure AttemptM where
  id : String
  needsApply : Bool := false
  changes : String := ""
  evalError : Bool := false
  backupAttempted : Bool := false
  backedUp : Bool := false
  backupError : Bool := false
  applyAttempted : Bool := false
  applied : Bool := false
  applyError : Bool := false
  skipped : Bool := false
deriving DecidableEq

/-- Per-resource lifecycle outcomes and the cancellation schedule of the
run, consulted by the loop: step-indexed `cancelMain`/`cancelRb` model
the `ctx.Done()` probes at node boundaries and before rollback steps. -/
structure RunOracle where
  check : String → Except Unit Bool
  diff : String → Except String String
  backupable : String → Bool
  backup : String → Except Unit Bool
  applyR : String → Except Unit Unit
  rollbackOk : String → Bool
  cancelMain : Nat → Bool
  cancelRb : Nat → Bool

/-- `Orchestrator.evaluate`: check, then diff (a diff failure is folded
into the changes text).  Returns the attempt and whether it failed. -/
def evalNode (o : RunOracle) (id : String) : AttemptM × Bool :=
  match o.check id with
  | .error _ => ({ id := id, evalError := true }, true)
  | .ok na =>
    if na then
      let ch := match o.diff id with
        | .ok d => d
        | .error msg => "[diff unavailable: " ++ msg ++ "]"
      ({ id := id, needsApply := true, changes := ch }, false)
    else ({ id := id }, false)

/-- `Orchestrator.backup`: only when backups are enabled and the
resource is `Backupable`. -/
def backupNode (o : RunOracle) (backupEnabled : Bool) (a : AttemptM) :
    AttemptM × Bool :=
  if !backupEnabled then (a, false)
  else if !(o.backupable a.id) then (a, false)
  else
    let a1 := { a with backupAttempted := true }
    match o.backup a.id with
    | .error _ => ({ a1 with backupError := true }, true)
    | .ok b => (if b then { a1 with backedUp := true } else a1, false)

/-- `Orchestrator.apply`. -/
def applyNode (o : RunOracle) (a : AttemptM) : AttemptM × Bool :=
  let a1 := { a with applyAttempted := true }
  match o.applyR a.id with
  | .error _ => ({ a1 with applyError := true }, true)
  | .ok _ => ({ a1 with applied := true }, false)

/-- `Orchestrator.rollback` over the already-reversed applied list:
check cancellation before each step, keep going past per-resource
rollback failures, count successes.  Returns the sequence of `Rollback`
calls issued and the success count. -/
def rollbackRun (rb : String → Bool) (cancelled : Nat → Bool) :
    List String → Nat → List String × Nat
  | [], _ => ([], 0)
  | a :: rest, step =>
    if cancelled step then ([], 0)
    else
      let r := rollbackRun rb cancelled rest (step + 1)
      (a :: r.1, r.2 + (if rb a then 1 else 0))

/-- Accumulated loop state of `Orchestrator.Run`. -/
structure LoopState where
  attempts : List AttemptM
  applied : List String
  appliedCount : Nat
  skippedCount : Nat
  failed : Bool
deriving DecidableEq

/-- The per-node loop of `Orchestrator.Run`; the returned Bool records
whether the loop stopped on a cancelled context. -/
def runLoop (o : RunOracle) (planOnly backupEnabled : Bool) :
    List String → Nat → LoopState → LoopState × Bool
  | [], _, st => (st, false)
  | id :: rest, step, st =>
    if o.cancelMain step then (st, true)
    else if st.failed then
      runLoop o planOnly backupEnabled rest (step + 1)
        { st with
            attempts := st.attempts ++ [{ id := id, skipped := true }]
            skippedCount := st.skippedCount + 1 }
    else
      let e := evalNode o id
      if e.2 then
        runLoop o planOnly backupEnabled rest (step + 1)
          { st with
              attempts := st.attempts ++ [e.1]
              failed := true }
      else if planOnly || !e.1.needsApply then
        runLoop o planOnly backupEnabled rest (step + 1)
          { st with attempts := st.attempts ++ [e.1] }
      else
        let b := backupNode o backupEnabled e.1
        if b.2 then
          runLoop o planOnly backupEnabled rest (step + 1)
            { st with
                attempts := st.attempts ++ [b.1]
                failed := true }
        else
          let ap := applyNode o b.1
          if ap.2 then
            runLoop o planOnly backupEnabled rest (step + 1)
              { st with
                  attempts := st.attempts ++ [ap.1]
                  failed := true }
          else
            runLoop o planOnly backupEnabled rest (step + 1)
              { st with
                  attempts := st.attempts ++ [ap.1]
                  applied := st.applied ++ [id]
                  appliedCount := st.appliedCount + 1 }

/-- The `Summary` of a run, extended with the observable applied and
rollback call sequences. -/
structure SummaryM where
  success : Bool
  cancelled : Bool
  attempts : List AttemptM
  totalCount : Nat
  appliedCount : Nat
  skippedCount : Nat
  rollbackCount : Nat
  appliedSeq : List String
  rollbackCalls : List String
deriving DecidableEq

/-- `Orchestrator.Run` after graph wiring and sort: iterate the sorted
nodes, then roll back the applied list in reverse when a failure
occurred and `planOnly` is off.  Context cancellation in the main loop
returns immediately without rollback. -/
def runModel (o : RunOracle) (planOnly backupEnabled : Bool)
    (nodes : List String) : SummaryM :=
  let r := runLoop o planOnly backupEnabled nodes 0 ⟨[], [], 0, 0, false⟩
  let st := r.1
  if r.2 then
    { success := false
      cancelled := true
      attempts := st.attempts
      totalCount := nodes.length
      appliedCount := st.appliedCount
      skippedCount := st.skippedCount
      rollbackCount := 0
      appliedSeq := st.applied
      rollbackCalls := [] }
  else
    let rb := if st.failed && !planOnly then
        rollbackRun o.rollbackOk o.cancelRb st.applied.reverse 0
      else ([], 0)
    { success := !st.failed
      cancelled := false
      attempts := st.attempts
      totalCount := nodes.length
      appliedCount := st.appliedCount
      skippedCount := st.skippedCount
      rollbackCount := rb.2
      appliedSeq := st.applied
      rollbackCalls := rb.1 }

/-! ## Rollback lemmas -/

theorem rollbackRun_take (rb cancelled : _) :
    ∀ (rev : List String) (step : Nat),
      ∃ k, (rollbackRun rb cancelled rev step).1 = rev.take k := by
  intro rev
  induction rev with
  | nil => exact fun step => ⟨0, rfl⟩
  | cons a rest ih =>
    intro step
    unfold rollbackRun
    by_cases hcd : cancelled step
    · rw [if_pos hcd]
      exact ⟨0, rfl⟩
    · rw [if_neg hcd]
      obtain ⟨k, hk⟩ := ih (step + 1)
      refine ⟨k + 1, ?_⟩
      show a :: (rollbackRun rb cancelled rest (step + 1)).1 =
        (a :: rest).take (k + 1)
      rw [List.take_succ_cons, hk]

theorem rollbackRun_nocancel (rb cancelled : _)
    (h : ∀ i, cancelled i = false) :
    ∀ (rev : List String) (step : Nat),
      (rollbackRun rb cancelled rev step).1 = rev := by
  intro rev
  induction rev with
  | nil => exact fun step => rfl
  | cons a rest ih =>
    intro step
    unfold rollbackRun
    rw [if_neg (by simp [h step])]
    show a :: (rollbackRun rb cancelled rest (step + 1)).1 = a :: rest
    rw [ih (step + 1)]

theorem rollbackRun_count (rb cancelled : _) :
    ∀ (rev : List String) (step : Nat),
      (rollbackRun rb cancelled rev step).2 =
        (rollbackRun rb cancelled rev step).1.countP rb := by
  intro rev
  induction rev with
  | nil => exact fun step => rfl
  | cons a rest ih =>
    intro step
    unfold rollbackRun
    by_cases hcd : cancelled step
    · rw [if_pos hcd]
      rfl
    · rw [if_neg hcd]
      show (rollbackRun rb cancelled rest (step + 1)).2 +
          (if rb a then 1 else 0) =
        (a :: (rollbackRun rb cancelled rest (step + 1)).1).countP rb
      rw [List.countP_cons, ih (step + 1)]

/-! ## Outcome partition -/

def isAppliedA (a : AttemptM) : Bool := a.applied

def isSkippedA (a : AttemptM) : Bool := a.skipped

def isEvalErrA (a : AttemptM) : Bool := a.evalError

def isApplyErrA (a : AttemptM) : Bool := a.applyError

def isBackupErrA (a : AttemptM) : Bool := a.backupError

def isNoOpA (a : AttemptM) : Bool := !a.needsApply && !a.evalError && !a.skipped

def outcomeCount (l : List AttemptM) : Nat :=
  l.countP isAppliedA + l.countP isSkippedA + l.countP isEvalErrA +
    l.countP isApplyErrA + l.countP isBackupErrA + l.countP isNoOpA

def outcomeScore (a : AttemptM) : Nat :=
  (if isAppliedA a then 1 else 0) + (if isSkippedA a then 1 else 0) +
    (if isEvalErrA a then 1 else 0) + (if isApplyErrA a then 1 else 0) +
    (if isBackupErrA a then 1 else 0) + (if isNoOpA a then 1 else 0)

theorem outcomeCount_append (l : List AttemptM) (a : AttemptM) :
    outcomeCount (l ++ [a]) = outcomeCount l + outcomeScore a := by
  unfold outcomeCount outcomeScore
  simp only [List.countP_append, List.countP_cons, List.countP_nil]
  ring

/-- The step equation of the run loop, spelled out for rewriting. -/
theorem runLoop_cons_eq (o : RunOracle) (p b : Bool) (id : String)
    (rest : List String) (step : Nat) (st : LoopState) :
    runLoop o p b (id :: rest) step st =
      (if o.cancelMain step then (st, true)
      else if st.failed then
        runLoop o p b rest (step + 1)
          { st with
              attempts := st.attempts ++ [{ id := id, skipped := true }]
              skippedCount := st.skippedCount + 1 }
      else if (evalNode o id).2 then
        runLoop o p b rest (step + 1)
          { st with
              attempts := st.attempts ++ [(evalNode o id).1]
              failed := true }
      else if p || !(evalNode o id).1.needsApply then
        runLoop o p b rest (step + 1)
          { st with attempts := st.attempts ++ [(evalNode o id).1] }
      else if (backupNode o b (evalNode o id).1).2 then
        runLoop o p b rest (step + 1)
          { st with
              attempts := st.attempts ++ [(backupNode o b (evalNode o id).1).1]
              failed := true }
      else if (applyNode o (backupNode o b (evalNode o id).1).1).2 then
        runLoop o p b rest (step + 1)
          { st with
              attempts := st.attempts ++
                [(applyNode o (backupNode o b (evalNode o id).1).1).1]
              failed := true }
      else
        runLoop o p b rest (step + 1)
          { st with
              attempts := st.attempts ++
                [(applyNode o (backupNode o b (evalNode o id).1).1).1]
              applied := st.applied ++ [id]
              appliedCount := st.appliedCount + 1 }) := rfl

theorem outcomeScore_skipped (id : String) :
    outcomeScore { id := id, skipped := true } = 1 := rfl

theorem evalNode_err_shape (o : RunOracle) (id : String)
    (he : (evalNode o id).2 = true) :
    evalNode o id = ({ id := id, evalError := true }, true) := by
  cases hchk : o.check id with
  | error u =>
    unfold evalNode
    rw [hchk]
  | ok na =>
    have h : (evalNode o id).2 = false := by
      unfold evalNode
      rw [hchk]
      cases na <;> rfl
    rw [h] at he
    exact absurd he (by simp)


theorem evalNode_err_score (o : RunOracle) (id : String)
    (he : (evalNode o id).2 = true) :
    outcomeScore (evalNode o id).1 = 1 := by
  rw [evalNode_err_shape o id he]
  rfl

theorem evalNode_noop_shape (o : RunOracle) (id : String)
    (he : (evalNode o id).2 = false)
    (hna : (evalNode o id).1.needsApply = false) :
    evalNode o id = ({ id := id }, false) := by
  cases hchk : o.check id with
  | error u =>
    have h : (evalNode o id).2 = true := by
      unfold evalNode
      rw [hchk]
    rw [h] at he
    exact absurd he (by simp)
  | ok na =>
    cases na with
    | true =>
      have h : (evalNode o id).1.needsApply = true := by
        unfold evalNode
        rw [hchk]
        rfl
      rw [h] at hna
      exact absurd hna (by simp)
    | false =>
      unfold evalNode
      rw [hchk]
      rfl

theorem evalNode_noop_score (o : RunOracle) (id : String)
    (he : (evalNode o id).2 = false)
    (hna : (evalNode o id).1.needsApply = false) :
    outcomeScore (evalNode o id).1 = 1 := by
  rw [evalNode_noop_shape o id he hna]
  rfl

theorem evalNode_diffed_shape (o : RunOracle) (id : String)
    (he : (evalNode o id).2 = false)
    (hna : (evalNode o id).1.needsApply = true) :
    ∃ ch, (evalNode o id).1 = { id := id, needsApply := true, changes := ch } := by
  cases hchk : o.check id with
  | error u =>
    have h : (evalNode o id).2 = true := by
      unfold evalNode
      rw [hchk]
    rw [h] at he
    exact absurd he (by simp)
  | ok na =>
    cases na with
    | false =>
      have h : (evalNode o id).1.needsApply = false := by
        unfold evalNode
        rw [hchk]
        rfl
      rw [h] at hna
      exact absurd hna (by simp)
    | true =>
      refine ⟨(match o.diff id with
        | Except.ok d => d
        | Except.error msg => "[diff unavailable: " ++ msg ++ "]"), ?_⟩
      unfold evalNode
      rw [hchk]
      rfl

theorem bool_eq_false {x : Bool} (h : ¬x = true) : x = false := by
  revert h
  cases x <;> simp

theorem backupNode_err_shape (o : RunOracle) (b : Bool) (a : AttemptM)
    (hb : (backupNode o b a).2 = true) :
    backupNode o b a =
      ({ a with backupAttempted := true, backupError := true }, true) := by
  cases b with
  | false =>
    have h : backupNode o false a = (a, false) := rfl
    rw [h] at hb
    exact absurd hb (by simp)
  | true =>
    by_cases hb2 : o.backupable a.id = true
    · cases hbk : o.backup a.id with
      | error u =>
        unfold backupNode
        rw [hb2, hbk]
        rfl
      | ok bb =>
        have h : (backupNode o true a).2 = false := by
          unfold backupNode
          rw [hb2, hbk]
          cases bb <;> rfl
        rw [h] at hb
        exact absurd hb (by simp)
    · have h : backupNode o true a = (a, false) := by
        unfold backupNode
        rw [bool_eq_false hb2]
        rfl
      rw [h] at hb
      exact absurd hb (by simp)

theorem backupNode_err_score (o : RunOracle) (b : Bool) (a : AttemptM)
    (h1 : a.needsApply = true) (h2 : a.evalError = false)
    (h3 : a.skipped = false) (h4 : a.applied = false)
    (h5 : a.applyError = false)
    (hb : (backupNode o b a).2 = true) :
    outcomeScore (backupNode o b a).1 = 1 := by
  rw [backupNode_err_shape o b a hb]
  simp [outcomeScore, isAppliedA, isSkippedA, isEvalErrA, isApplyErrA,
    isBackupErrA, isNoOpA, h1, h2, h3, h4, h5]

theorem backupNode_preserves (o : RunOracle) (b : Bool) (a : AttemptM)
    (h : (backupNode o b a).2 = false) :
    (backupNode o b a).1.needsApply = a.needsApply ∧
    (backupNode o b a).1.evalError = a.evalError ∧
    (backupNode o b a).1.skipped = a.skipped ∧
    (backupNode o b a).1.applied = a.applied ∧
    (backupNode o b a).1.applyError = a.applyError ∧
    (backupNode o b a).1.backupError = a.backupError := by
  cases b with
  | false =>
    have heq : backupNode o false a = (a, false) := rfl
    rw [heq]
    exact ⟨rfl, rfl, rfl, rfl, rfl, rfl⟩
  | true =>
    by_cases hb2 : o.backupable a.id = true
    · cases hbk : o.backup a.id with
      | error u =>
        have heq : (backupNode o true a).2 = true := by
          unfold backupNode
          rw [hb2, hbk]
          rfl
        rw [heq] at h
        exact absurd h (by simp)
      | ok bb =>
        cases bb with
        | false =>
          have heq : backupNode o true a =
              ({ a with backupAttempted := true }, false) := by
            unfold backupNode
            rw [hb2, hbk]
            rfl
          rw [heq]
          exact ⟨rfl, rfl, rfl, rfl, rfl, rfl⟩
        | true =>
          have heq : backupNode o true a =
              ({ a with backupAttempted := true, backedUp := true }, false) := by
            unfold backupNode
            rw [hb2, hbk]
            rfl
          rw [heq]
          exact ⟨rfl, rfl, rfl, rfl, rfl, rfl⟩
    · have heq : backupNode o true a = (a, false) := by
        unfold backupNode
        rw [bool_eq_false hb2]
        rfl
      rw [heq]
      exact ⟨rfl, rfl, rfl, rfl, rfl, rfl⟩

theorem applyNode_err_shape (o : RunOracle) (a : AttemptM)
    (ha : (applyNode o a).2 = true) :
    applyNode o a =
      ({ a with applyAttempted := true, applyError := true }, true) := by
  cases hap : o.applyR a.id with
  | error u =>
    unfold applyNode
    rw [hap]
  | ok u =>
    have h : (applyNode o a).2 = false := by
      unfold applyNode
      rw [hap]
    rw [h] at ha
    exact absurd ha (by simp)

theorem applyNode_ok_shape (o : RunOracle) (a : AttemptM)
    (ha : (applyNode o a).2 = false) :
    applyNode o a =
      ({ a with applyAttempted := true, applied := true }, false) := by
  cases hap : o.applyR a.id with
  | ok u =>
    unfold applyNode
    rw [hap]
  | error u =>
    have h : (applyNode o a).2 = true := by
      unfold applyNode
      rw [hap]
    rw [h] at ha
    exact absurd ha (by simp)

theorem applyNode_err_score (o : RunOracle) (a : AttemptM)
    (h1 : a.needsApply = true) (h2 : a.evalError = false)
    (h3 : a.skipped = false) (h4 : a.applied = false)
    (h6 : a.backupError = false)
    (ha : (applyNode o a).2 = true) :
    outcomeScore (applyNode o a).1 = 1 := by
  rw [applyNode_err_shape o a ha]
  simp [outcomeScore, isAppliedA, isSkippedA, isEvalErrA, isApplyErrA,
    isBackupErrA, isNoOpA, h1, h2, h3, h4, h6]

theorem applyNode_ok_score (o : RunOracle) (a : AttemptM)
    (h1 : a.needsApply = true) (h2 : a.evalError = false)
    (h3 : a.skipped = false) (h5 : a.applyError = false)
    (h6 : a.backupError = false)
    (ha : (applyNode o a).2 = false) :
    outcomeScore (applyNode o a).1 = 1 := by
  rw [applyNode_ok_shape o a ha]
  simp [outcomeScore, isAppliedA, isSkippedA, isEvalErrA, isApplyErrA,
    isBackupErrA, isNoOpA, h1, h2, h3, h5, h6]

/-- Core loop invariant for C2/C3: without cancellation the loop never
reports a cancelled run, and (with `planOnly = false`) every processed
node contributes exactly one outcome to the attempt list. -/
theorem runLoop_spec (o : RunOracle) (b : Bool)
    (hc : ∀ i, o.cancelMain i = false) :
    ∀ nodes step st,
      (runLoop o false b nodes step st).2 = false ∧
      outcomeCount (runLoop o false b nodes step st).1.attempts =
        outcomeCount st.attempts + nodes.length := by
  intro nodes
  induction nodes with
  | nil =>
    intro step st
    exact ⟨rfl, by simp [runLoop]⟩
  | cons id rest ih =>
    intro step st
    rw [runLoop_cons_eq]
    rw [if_neg (by simp [hc step])]
    by_cases hf : st.failed = true
    · rw [if_pos hf]
      refine ⟨(ih (step + 1) _).1, ?_⟩
      rw [(ih (step + 1) _).2]
      show outcomeCount (st.attempts ++ [{ id := id, skipped := true }]) +
          rest.length = outcomeCount st.attempts + (id :: rest).length
      rw [outcomeCount_append, outcomeScore_skipped]
      simp only [List.length_cons]
      omega
    · rw [if_neg hf]
      by_cases he : (evalNode o id).2 = true
      · rw [if_pos he]
        refine ⟨(ih (step + 1) _).1, ?_⟩
        rw [(ih (step + 1) _).2]
        show outcomeCount (st.attempts ++ [(evalNode o id).1]) + rest.length =
          outcomeCount st.attempts + (id :: rest).length
        rw [outcomeCount_append, evalNode_err_score o id he]
        simp only [List.length_cons]
        omega
      · have he0 : (evalNode o id).2 = false := bool_eq_false he
        rw [if_neg he]
        by_cases hna : (evalNode o id).1.needsApply = true
        · rw [if_neg (by simp [hna])]
          obtain ⟨ch, hch⟩ := evalNode_diffed_shape o id he0 hna
          have hev2 : (evalNode o id).1.evalError = false := by rw [hch]
          have hev3 : (evalNode o id).1.skipped = false := by rw [hch]
          have hev4 : (evalNode o id).1.applied = false := by rw [hch]
          have hev5 : (evalNode o id).1.applyError = false := by rw [hch]
          have hev6 : (evalNode o id).1.backupError = false := by rw [hch]
          by_cases hb : (backupNode o b (evalNode o id).1).2 = true
          · rw [if_pos hb]
            refine ⟨(ih (step + 1) _).1, ?_⟩
            rw [(ih (step + 1) _).2]
            show outcomeCount
                (st.attempts ++ [(backupNode o b (evalNode o id).1).1]) +
                rest.length = outcomeCount st.attempts + (id :: rest).length
            rw [outcomeCount_append,
              backupNode_err_score o b (evalNode o id).1 hna hev2 hev3 hev4
                hev5 hb]
            simp only [List.length_cons]
            omega
          · have hb0 : (backupNode o b (evalNode o id).1).2 = false :=
              bool_eq_false hb
            rw [if_neg hb]
            obtain ⟨p1, p2, p3, p4, p5, p6⟩ :=
              backupNode_preserves o b (evalNode o id).1 hb0
            by_cases ha : (applyNode o (backupNode o b (evalNode o id).1).1).2
                = true
            · rw [if_pos ha]
              refine ⟨(ih (step + 1) _).1, ?_⟩
              rw [(ih (step + 1) _).2]
              show outcomeCount (st.attempts ++
                  [(applyNode o (backupNode o b (evalNode o id).1).1).1]) +
                  rest.length = outcomeCount st.attempts + (id :: rest).length
              rw [outcomeCount_append,
                applyNode_err_score o _ (p1.trans hna) (p2.trans hev2)
                  (p3.trans hev3) (p4.trans hev4) (p6.trans hev6) ha]
              simp only [List.length_cons]
              omega
            · rw [if_neg ha]
              refine ⟨(ih (step + 1) _).1, ?_⟩
              rw [(ih (step + 1) _).2]
              show outcomeCount (st.attempts ++
                  [(applyNode o (backupNode o b (evalNode o id).1).1).1]) +
                  rest.length = outcomeCount st.attempts + (id :: rest).length
              rw [outcomeCount_append,
                applyNode_ok_score o _ (p1.trans hna) (p2.trans hev2)
                  (p3.trans hev3) (p5.trans hev5) (p6.trans hev6)
                  (bool_eq_false ha)]
              simp only [List.length_cons]
              omega
        · have hna0 : (evalNode o id).1.needsApply = false := bool_eq_false hna
          rw [if_pos (by simp [hna0])]
          refine ⟨(ih (step + 1) _).1, ?_⟩
          rw [(ih (step + 1) _).2]
          show outcomeCount (st.attempts ++ [(evalNode o id).1]) + rest.length =
            outcomeCount st.attempts + (id :: rest).length
          rw [outcomeCount_append, evalNode_noop_score o id he0 hna0]
          simp only [List.length_cons]
          omega

/-- C3 counterexample: in a plan-only run a resource that needs changes
is neither applied, skipped, failed, nor a no-op, so the six outcome
counts sum to 0 while `TotalCount` is 1. -/
def c3Oracle : RunOracle :=
  { check := fun _ => Except.ok true
    diff := fun _ => Except.ok "+x"
    backupable := fun _ => false
    backup := fun _ => Except.ok false
    applyR := fun _ => Except.ok ()
    rollbackOk := fun _ => true
    cancelMain := fun _ => false
    cancelRb := fun _ => false }

/-- C3 counterexample theorem (plan-only run breaks the partition). -/
theorem C3_planOnly_breaks_partition :
    (runModel c3Oracle true false ["a"]).attempts.countP isAppliedA +
      (runModel c3Oracle true false ["a"]).attempts.countP isSkippedA +
      (runModel c3Oracle true false ["a"]).attempts.countP isEvalErrA +
      (runModel c3Oracle true false ["a"]).attempts.countP isApplyErrA +
      (runModel c3Oracle true false ["a"]).attempts.countP isBackupErrA +
      (runModel c3Oracle true false ["a"]).attempts.countP isNoOpA = 0 ∧
    (runModel c3Oracle true false ["a"]).totalCount = 1 := ⟨rfl, rfl⟩

/-- C3 (amended): in every completed run with `planOnly = false` (the
context never cancelled), the Attempt outcomes partition the node set:
applied + skipped + failed-at-eval + failed-at-apply + failed-at-backup
+ no-op equals `TotalCount`. -/
theorem C3_outcome_partition (o : RunOracle) (b : Bool) (nodes : List String)
    (hc : ∀ i, o.cancelMain i = false) :
    (runModel o false b nodes).attempts.countP isAppliedA +
      (runModel o false b nodes).attempts.countP isSkippedA +
      (runModel o false b nodes).attempts.countP isEvalErrA +
      (runModel o false b nodes).attempts.countP isApplyErrA +
      (runModel o false b nodes).attempts.countP isBackupErrA +
      (runModel o false b nodes).attempts.countP isNoOpA =
    (runModel o false b nodes).totalCount := by
  have h := runLoop_spec o b hc nodes 0 ⟨[], [], 0, 0, false⟩
  have h2 : outcomeCount
      (runLoop o false b nodes 0 ⟨[], [], 0, 0, false⟩).1.attempts =
      nodes.length := by
    rw [h.2]
    show outcomeCount [] + nodes.length = nodes.length
    simp [outcomeCount]
  have h3 : (runModel o false b nodes).attempts =
      (runLoop o false b nodes 0 ⟨[], [], 0, 0, false⟩).1.attempts := by
    simp [runModel, h.1]
  have h4 : (runModel o false b nodes).totalCount = nodes.length := by
    simp [runModel, h.1]
  rw [h3, h4]
  exact h2

/-- Witness oracle: a linear a, b, c run where c's apply fails. -/
def wOracle : RunOracle :=
  { check := fun _ => Except.ok true
    diff := fun _ => Except.ok "+x"
    backupable := fun _ => false
    backup := fun _ => Except.ok false
    applyR := fun id => if id = "c" then Except.error () else Except.ok ()
    rollbackOk := fun _ => true
    cancelMain := fun _ => false
    cancelRb := fun _ => false }

/-- Witness for C3 (amended) on the concrete a, b, c run. -/
theorem C3_outcome_partition_witness :
    (runModel wOracle false false ["a", "b", "c"]).attempts.countP isAppliedA +
      (runModel wOracle false false ["a", "b", "c"]).attempts.countP isSkippedA +
      (runModel wOracle false false ["a", "b", "c"]).attempts.countP
        isEvalErrA +
      (runModel wOracle false false ["a", "b", "c"]).attempts.countP
        isApplyErrA +
      (runModel wOracle false false ["a", "b", "c"]).attempts.countP
        isBackupErrA +
      (runModel wOracle false false ["a", "b", "c"]).attempts.countP isNoOpA =
    (runModel wOracle false false ["a", "b", "c"]).totalCount :=
  C3_outcome_partition wOracle false ["a", "b", "c"] (fun _ => rfl)

/-- C2: with `planOnly = false` and the main loop not cancelled, the
rollback call sequence is a prefix of the reverse of the successful
apply sequence (truncation only by rollback-phase cancellation); with no
cancellation it is exactly the reverse whenever the run failed,
regardless of individual rollback failures; and `RollbackCount` is the
number of rollback calls that succeeded. -/
theorem C2_rollback_reverse (o : RunOracle) (b : Bool) (nodes : List String)
    (hc : ∀ i, o.cancelMain i = false) :
    (∃ k, (runModel o false b nodes).rollbackCalls =
      (runModel o false b nodes).appliedSeq.reverse.take k) ∧
    ((∀ i, o.cancelRb i = false) →
      (runModel o false b nodes).success = false →
      (runModel o false b nodes).rollbackCalls =
        (runModel o false b nodes).appliedSeq.reverse) ∧
    (runModel o false b nodes).rollbackCount =
      (runModel o false b nodes).rollbackCalls.countP o.rollbackOk := by
  have h1 := (runLoop_spec o b hc nodes 0 ⟨[], [], 0, 0, false⟩).1
  have happ : (runModel o false b nodes).appliedSeq =
      (runLoop o false b nodes 0 ⟨[], [], 0, 0, false⟩).1.applied := by
    simp [runModel, h1]
  by_cases hfail : (runLoop o false b nodes 0 ⟨[], [], 0, 0, false⟩).1.failed
      = true
  · have hcalls : (runModel o false b nodes).rollbackCalls =
        (rollbackRun o.rollbackOk o.cancelRb
          (runLoop o false b nodes 0 ⟨[], [], 0, 0, false⟩).1.applied.reverse
          0).1 := by
      simp [runModel, h1, hfail]
    have hcount : (runModel o false b nodes).rollbackCount =
        (rollbackRun o.rollbackOk o.cancelRb
          (runLoop o false b nodes 0 ⟨[], [], 0, 0, false⟩).1.applied.reverse
          0).2 := by
      simp [runModel, h1, hfail]
    refine ⟨?_, ?_, ?_⟩
    · rw [hcalls, happ]
      exact rollbackRun_take o.rollbackOk o.cancelRb _ 0
    · intro hrb _
      rw [hcalls, happ]
      exact rollbackRun_nocancel o.rollbackOk o.cancelRb hrb _ 0
    · rw [hcount, hcalls]
      exact rollbackRun_count o.rollbackOk o.cancelRb _ 0
  · have hfail0 : (runLoop o false b nodes 0 ⟨[], [], 0, 0, false⟩).1.failed
        = false := bool_eq_false hfail
    have hcalls : (runModel o false b nodes).rollbackCalls = [] := by
      simp [runModel, h1, hfail0]
    have hcount : (runModel o false b nodes).rollbackCount = 0 := by
      simp [runModel, h1, hfail0]
    have hsucc : (runModel o false b nodes).success = true := by
      simp [runModel, h1, hfail0]
    refine ⟨⟨0, by rw [hcalls]; simp⟩, ?_, ?_⟩
    · intro _ hs
      rw [hsucc] at hs
      exact absurd hs (by simp)
    · rw [hcount, hcalls]
      rfl

/-- Witness for C2 on the concrete a, b, c run with c failing: the
rollback calls are exactly the reversed applied sequence and the count
matches the successes. -/
theorem C2_rollback_reverse_witness :
    (runModel wOracle false false ["a", "b", "c"]).rollbackCalls =
      (runModel wOracle false false ["a", "b", "c"]).appliedSeq.reverse ∧
    (runModel wOracle false false ["a", "b", "c"]).rollbackCount =
      (runModel wOracle false false ["a", "b", "c"]).rollbackCalls.countP
        wOracle.rollbackOk := by
  have h := C2_rollback_reverse wOracle false ["a", "b", "c"] (fun _ => rfl)
  exact ⟨h.2.1 (fun _ => rfl) rfl, h.2.2⟩

end Axion
